import Mathlib

/-!
Verification of the reverse-sequential file access subsystem of the monty
repository (line-ending sniffer, chunked reverse line reader, memory-mapped
reverse file reader, advisory file lock), together with the
ControlledDict.update check from monty/collections.py and the exact-lookup
index function from monty/bisect.py.

File content is modelled as a list of characters.  The io module itself
(monty/io.py) is not part of the provided sources, only its tests; the
definitions for the sniffer, the two reverse readers and the lock are
therefore modelled from the spec, faithful to its algorithm descriptions.
-/

namespace Monty

/-- LineEnding enum of the spec: Unix is a bare newline, Windows is a
carriage return followed by a newline. -/
inductive LineEnding where
  | unix : LineEnding
  | windows : LineEnding
deriving DecidableEq, Repr

/-- Terminator byte sequence of a line ending. -/
def LineEnding.term : LineEnding → List Char
  | .unix => ['\n']
  | .windows => ['\r', '\n']

/-- Error kinds of the io subsystem (spec section 7). -/
inductive IOErr where
  | unknownLineEnding : IOErr
  | unsupportedInputType (typeName : String) : IOErr
  | expectedStreamGotPath : IOErr
deriving DecidableEq, Repr

/-- Non-fatal warnings of the io subsystem (spec section 7). -/
inductive Warning where
  | fileEmpty : Warning
  | mappingSkipped : Warning
  | maxMemSmall : Warning
deriving DecidableEq, Repr, BEq

/-- Kind of an already-open stream handed to the readers; the logical
content is the same regardless of the kind (decompression is the external
collaborator of spec section 6). -/
inductive StreamKind where
  | text : StreamKind
  | binary : StreamKind
  | gzip : StreamKind
  | bz2 : StreamKind
deriving DecidableEq, Repr

/-- Kind of a path value: a plain string or a structured path value. -/
inductive PathKind where
  | str : PathKind
  | pathlib : PathKind
deriving DecidableEq, Repr

/-- An argument handed to the io entry points: a path carrying the bytes of
the file it denotes, an open stream carrying the bytes it yields, or a
value of some other type. -/
inductive FileInput where
  | path (kind : PathKind) (content : List Char) : FileInput
  | stream (kind : StreamKind) (content : List Char) : FileInput
  | other (typeName : String) : FileInput

/-- Bytes readable from an input, if it is a path or a stream. -/
def FileInput.contentOf : FileInput → Option (List Char)
  | .path _ c => some c
  | .stream _ c => some c
  | .other _ => none

/-- Whether the byte list contains a carriage return immediately followed
by a newline. -/
def containsCRLF : List Char → Bool
  | [] => false
  | [_] => false
  | a :: b :: rest => (a = '\r' && b = '\n') || containsCRLF (b :: rest)

/-- Modelled from the spec: the scanning core of the line-ending sniffer
of monty/io.py (_get_line_ending), whose source is not in the provided
tree.  Scan the probed bytes for an occurrence of a carriage return
followed by a newline; if found the result is Windows, otherwise a bare
newline means Unix.  An empty stream warns and defaults to Unix; non-empty
content without a recognized terminator is an UnknownLineEnding error.
The probe is modelled as the whole content. -/
def lineEndingScan (content : List Char) : Except IOErr (LineEnding × List Warning) :=
  if content.isEmpty then .ok (.unix, [.fileEmpty])
  else if containsCRLF content then .ok (.windows, [])
  else if content.contains '\n' then .ok (.unix, [])
  else .error .unknownLineEnding

/-- Modelled from the spec: _get_line_ending of monty/io.py (not in the
provided tree).  Accepts a path or an open stream and applies the same
scan to the content in every case; any other argument type is an
UnsupportedInputType error naming the received type. -/
def _get_line_ending (input : FileInput) : Except IOErr (LineEnding × List Warning) :=
  match input with
  | .path _ c => lineEndingScan c
  | .stream _ c => lineEndingScan c
  | .other t => .error (.unsupportedInputType t)

/-- Forward split of content into lines on a fixed terminator, each line
keeping its trailing terminator; a final fragment without a terminator is
kept as a last line.  This is the forward line sequence of a file, the
reference point of the round-trip property. -/
def splitLines (T : List Char) : List Char → List (List Char)
  | [] => []
  | c :: rest =>
    if T.isPrefixOf (c :: rest) then
      T :: splitLines T (rest.drop (T.length - 1))
    else
      match splitLines T rest with
      | [] => [[c]]
      | l :: ls => (c :: l) :: ls
termination_by s => s.length
decreasing_by
  · simp only [List.length_cons]
    have := List.length_drop (T.length - 1) rest
    omega
  · simp only [List.length_cons]; omega

/-- Forward line iteration of a file whose line ending is e. -/
def forwardLines (e : LineEnding) (content : List Char) : List (List Char) :=
  splitLines e.term content

/-- Default block size of the chunked reader. -/
def BLK_SIZE : Nat := 4096

/-- Modelled from the spec: the block size actually used by the chunked
reader.  Blocks are at most max_mem bytes; if the adjusted size would be
zero it is clamped back to the default block size with a warning. -/
def effectiveBlockSize (maxMem : Nat) : Nat × List Warning :=
  let blk := min maxMem BLK_SIZE
  if blk = 0 then (BLK_SIZE, [.maxMemSmall]) else (blk, [])

/-- Forward chunking of the stream content into blocks of at most blk
bytes (at least one byte per block so that reading makes progress). -/
def chunkBlocks (blk : Nat) (s : List Char) : List (List Char) :=
  if s = [] then []
  else s.take (max blk 1) :: chunkBlocks blk (s.drop (max blk 1))
termination_by s.length
decreasing_by
  have hs : s.length ≠ 0 := by
    intro h
    exact (by assumption : s ≠ []) (List.eq_nil_of_length_eq_zero h)
  have := List.length_drop (max blk 1) s
  omega

/-- Modelled from the spec: the backward pass of the chunked reverse
reader.  The input list holds the buffered blocks latest-in-file first;
each block is joined with the residual fragment carried from the
later-in-file blocks, split into lines, the complete lines are emitted in
reverse order and the first (possibly partial) line becomes the new
residual.  Returns the emitted lines and the final residual. -/
def stitchRev (T : List Char) : List (List Char) → List Char → List (List Char) × List Char
  | [], r => ([], r)
  | b :: earlier, r =>
    match splitLines T (b ++ r) with
    | [] => stitchRev T earlier []
    | h :: t =>
      let res := stitchRev T earlier h
      (t.reverse ++ res.1, res.2)

/-- Modelled from the spec: full chunked reverse read of buffered content:
process the blocks from the last to the first and finally emit the
residual fragment as the chronologically first line of the file (nothing
if it is empty, which only happens for empty content). -/
def chunkedLines (T : List Char) (blk : Nat) (content : List Char) : List (List Char) :=
  let res := stitchRev T (chunkBlocks blk content).reverse []
  res.1 ++ (if res.2 = [] then [] else [res.2])

/-- Modelled from the spec: reverse_readline of monty/io.py (not in the
provided tree).  A path argument is a programming error reported before
any line is produced; other non-stream arguments are an unsupported input
type; for a stream the line ending is sniffed once and the chunked
backward pass produces the lines, with the sniffer and block-size
warnings. -/
def reverse_readline (input : FileInput) (maxMem : Nat) :
    Except IOErr (List (List Char) × List Warning) :=
  match input with
  | .path _ _ => .error .expectedStreamGotPath
  | .other t => .error (.unsupportedInputType t)
  | .stream _ c =>
    match lineEndingScan c with
    | .error e => .error e
    | .ok (le, w1) =>
      let bw := effectiveBlockSize maxMem
      .ok (chunkedLines le.term bw.1 c, w1 ++ bw.2)

/-- Greatest position i at most the given bound such that the terminator
occurs in c starting at i, if any. -/
def lastOcc (T c : List Char) : Nat → Option Nat
  | 0 => if T.isPrefixOf c then some 0 else none
  | b + 1 =>
    if T.isPrefixOf (c.drop (b + 1)) then some (b + 1) else lastOcc T c b

/-- A found occurrence position is at most the search bound. -/
theorem lastOcc_le (T c : List Char) :
    ∀ b i, lastOcc T c b = some i → i ≤ b := by
  intro b
  induction b with
  | zero =>
    intro i h
    unfold lastOcc at h
    split at h
    · simp only [Option.some.injEq] at h
      omega
    · exact absurd h (by simp)
  | succ b ih =>
    intro i h
    unfold lastOcc at h
    split at h
    · simp only [Option.some.injEq] at h
      omega
    · have := ih i h
      omega

/-- Modelled from the spec: backward walk of the memory-mapped reader.
The cursor starts at the end of the mapped region; each step locates the
last terminator occurrence ending strictly before the cursor, emits the
bytes after it up to the cursor as one line, and moves the cursor to the
end of that occurrence; when no such occurrence remains, the prefix up to
the cursor is emitted as the final (chronologically first) line. -/
def mmapGo (T c : List Char) (cursor : Nat) : List (List Char) :=
  if cursor = 0 then []
  else if h : T.length + 1 ≤ cursor then
    match hfind : lastOcc T c (cursor - T.length - 1) with
    | none => [c.take cursor]
    | some i =>
      (c.drop (i + T.length)).take (cursor - (i + T.length)) :: mmapGo T c (i + T.length)
  else [c.take cursor]
termination_by cursor
decreasing_by
  have hle := lastOcc_le T c (cursor - T.length - 1) i hfind
  omega

/-- Modelled from the spec: reverse line walk over the whole mapped file. -/
def mmapReverse (T c : List Char) : List (List Char) :=
  mmapGo T c c.length

/-- Modelled from the spec: reverse_readfile of monty/io.py (not in the
provided tree), restricted to the mapped fast path for a plain on-disk
file.  The line ending is sniffed on the path first; a zero-length file
cannot be mapped, so it yields no lines and adds a mapping-skipped
warning to the sniffer's empty-file warning; otherwise the mapped
backward walk produces the lines. -/
def reverse_readfile (content : List Char) :
    Except IOErr (List (List Char) × List Warning) :=
  match lineEndingScan content with
  | .error e => .error e
  | .ok (le, w1) =>
    if content.isEmpty then .ok ([], w1 ++ [.mappingSkipped])
    else .ok (mmapReverse le.term content, w1)

/-- Content of a file holding the given sequence of lines, each written
with the terminator of the line ending e. -/
def joinLines (e : LineEnding) (L : List (List Char)) : List Char :=
  (L.map (fun l => l ++ e.term)).flatten

/-- A character that belongs to a line body (and not to a terminator):
neither a newline nor a carriage return. -/
def cleanChar (c : Char) : Prop := c ≠ '\n' ∧ c ≠ '\r'

instance (c : Char) : Decidable (cleanChar c) :=
  inferInstanceAs (Decidable (c ≠ '\n' ∧ c ≠ '\r'))

/-- Error raised when a lock cannot be acquired within the timeout,
identifying the marker path and the configured timeout. -/
inductive LockError where
  | lockTimeout (path : String) (timeout : Nat) : LockError
deriving DecidableEq, Repr

/-- Modelled from the spec: the acquire loop of the advisory file lock of
monty/io.py (FileLock, not in the provided tree), viewed against a fixed
set of existing marker files (the scenario in which no other process
creates or removes markers during the loop).  The atomic exclusive create
succeeds exactly when the marker is absent; on failure the loop sleeps
the poll interval (recorded in the returned list) and retries until the
elapsed wall-clock time exceeds the timeout, then reports LockTimeout.
The elapsed time advances by at least one unit per retry so that the
loop terminates even for a zero poll interval (the spec requires a
positive duration). -/
def acquireGo (held : List String) (p : String) (timeout poll : Nat)
    (elapsed : Nat) : Except LockError (List String) × List Nat :=
  if p ∈ held then
    if elapsed > timeout then (.error (.lockTimeout p timeout), [])
    else
      let res := acquireGo held p timeout poll (elapsed + max poll 1)
      (res.1, poll :: res.2)
  else (.ok (p :: held), [])
termination_by timeout + 1 - elapsed
decreasing_by omega

/-- Modelled from the spec: FileLock.acquire against a fixed marker set,
returning the updated marker set on success (the marker is created) or a
LockTimeout error, together with the list of sleeps performed. -/
def acquire (held : List String) (p : String) (timeout poll : Nat) :
    Except LockError (List String) × List Nat :=
  acquireGo held p timeout poll 0

/-- Python error kinds relevant to the collections and bisect modules. -/
inductive PyError where
  | keyError : PyError
  | typeError : PyError
  | valueError : PyError
deriving DecidableEq, Repr

/-- ControlledDict of monty/collections.py: a dictionary with
configurable mutability flags; the data is an association list with
distinct keys maintained by insertion order, as a Python dict. -/
structure ControlledDict (K V : Type) where
  data : List (K × V)
  allow_add : Bool
  allow_del : Bool
  allow_update : Bool

variable {K V : Type} [DecidableEq K]

/-- Whether a key is present in the association list. -/
def hasKey (data : List (K × V)) (k : K) : Bool :=
  data.any (fun kv => kv.1 = k)

/-- Assignment of a key as a Python dict performs it: overwrite in place
when the key exists, append otherwise. -/
def setPair (data : List (K × V)) (k : K) (v : V) : List (K × V) :=
  if hasKey data k then data.map (fun kv => if kv.1 = k then (k, v) else kv)
  else data ++ [(k, v)]

/-- ControlledDict.__setitem__: adding a new key is a TypeError when
allow_add is false; otherwise the assignment is performed. -/
def ControlledDict.setitem (d : ControlledDict K V) (k : K) (v : V) :
    Except PyError (ControlledDict K V) :=
  if !hasKey d.data k && !d.allow_add then .error .typeError
  else .ok { d with data := setPair d.data k v }

/-- The validation loop of ControlledDict.update: for each key of the
provided mapping, a key that is new while allow_add is false raises
KeyError; the loop performs no mutation. -/
def ControlledDict.checkKeys (d : ControlledDict K V) : List K → Option PyError
  | [] => none
  | k :: ks =>
    if !hasKey d.data k && !d.allow_add then some .keyError
    else d.checkKeys ks

/-- The mutation loop run by UserDict.update after validation: assign the
pairs one by one through __setitem__, stopping at the first error. -/
def ControlledDict.applyPairs (d : ControlledDict K V) :
    List (K × V) → ControlledDict K V × Option PyError
  | [] => (d, none)
  | (k, v) :: rest =>
    match d.setitem k v with
    | .error e => (d, some e)
    | .ok d2 => d2.applyPairs rest

/-- ControlledDict.update: validate every key of the mapping first, then
perform the assignments; the final dictionary and the raised error, if
any, are returned. -/
def ControlledDict.update (d : ControlledDict K V) (m : List (K × V)) :
    ControlledDict K V × Option PyError :=
  match d.checkKeys (m.map Prod.fst) with
  | some e => (d, some e)
  | none => d.applyPairs m

/-- The binary search loop of Python bisect.bisect_left over the slice
between lo and hi. -/
def bisectLeftGo (a : List Int) (x : Int) (lo hi : Nat) : Nat :=
  if lo < hi then
    let mid := (lo + hi) / 2
    if a.getD mid 0 < x then bisectLeftGo a x (mid + 1) hi
    else bisectLeftGo a x lo mid
  else lo
termination_by hi - lo
decreasing_by
  · omega
  · omega

/-- Python bisect.bisect_left over the whole list. -/
def bisect_left (a : List Int) (x : Int) : Nat :=
  bisectLeftGo a x 0 a.length

/-- index of monty/bisect.py with atol omitted: locate the leftmost value
exactly equal to x through bisect_left, raising ValueError when the
insertion point is at the end or holds a different value. -/
def index (a : List Int) (x : Int) : Except PyError Nat :=
  let i := bisect_left a x
  if i ≠ a.length then
    if a.getD i 0 = x then .ok i else .error .valueError
  else .error .valueError

/-! ### Lemmas about the forward line split -/

/-- The terminators under consideration: a bare newline or a carriage
return followed by a newline. -/
def goodTerm (T : List Char) : Prop := T = ['\n'] ∨ T = ['\r', '\n']

theorem goodTerm_ne_nil {T : List Char} (hT : goodTerm T) : T ≠ [] := by
  rcases hT with h | h <;> simp [h]

theorem goodTerm_length_le {T : List Char} (hT : goodTerm T) : T.length ≤ 2 := by
  rcases hT with h | h <;> simp [h]

theorem LineEnding.term_goodTerm (e : LineEnding) : goodTerm e.term := by
  cases e
  · exact Or.inl rfl
  · exact Or.inr rfl

theorem splitLines_nil (T : List Char) : splitLines T [] = [] := by
  simp [splitLines]

/-- Every produced line is nonempty. -/
theorem ne_nil_of_mem_splitLines {T : List Char} (hT : T ≠ []) :
    ∀ s, ∀ x ∈ splitLines T s, x ≠ [] := by
  intro s
  induction s using splitLines.induct T with
  | case1 => simp [splitLines]
  | case2 c rest hpre ih =>
    rw [splitLines, if_pos hpre]
    intro x hx
    rcases List.mem_cons.mp hx with h | h
    · exact h ▸ hT
    · exact ih x h
  | case3 c rest hpre heq =>
    rw [splitLines, if_neg hpre, heq]
    intro x hx
    simp only [List.mem_singleton] at hx
    simp [hx]
  | case4 c rest hpre l ls heq ih =>
    rw [splitLines, if_neg hpre, heq]
    intro x hx
    rcases List.mem_cons.mp hx with h | h
    · simp [h]
    · exact ih x (heq ▸ List.mem_cons_of_mem _ h)

/-- The split of a nonempty string is nonempty. -/
theorem splitLines_ne_nil (T : List Char) {s : List Char} (hs : s ≠ []) :
    splitLines T s ≠ [] := by
  cases s with
  | nil => exact absurd rfl hs
  | cons c rest =>
    rw [splitLines]
    split
    · simp
    · split <;> simp

theorem splitLines_eq_nil_iff (T : List Char) (s : List Char) :
    splitLines T s = [] ↔ s = [] := by
  constructor
  · intro h
    by_contra hs
    exact splitLines_ne_nil T hs h
  · intro h
    rw [h, splitLines_nil]

/-- Concatenating the produced lines restores the content. -/
theorem splitLines_flatten {T : List Char} (hT : T ≠ []) :
    ∀ s, (splitLines T s).flatten = s := by
  intro s
  induction s using splitLines.induct T with
  | case1 => simp [splitLines]
  | case2 c rest hpre ih =>
    rw [splitLines, if_pos hpre]
    rw [List.flatten_cons, ih]
    obtain ⟨r, hr⟩ := List.isPrefixOf_iff_prefix.mp hpre
    cases T with
    | nil => exact absurd rfl hT
    | cons t0 ts =>
      simp only [List.cons_append] at hr
      obtain ⟨hc, hrest⟩ := List.cons.injEq .. ▸ hr
      subst hc
      rw [hrest.symm]
      simp [List.drop_left]
  | case3 c rest hpre heq ih =>
    rw [splitLines, if_neg hpre, heq]
    rw [heq] at ih
    simp only [List.flatten_nil] at ih
    simp [ih.symm]
  | case4 c rest hpre l ls heq ih =>
    rw [splitLines, if_neg hpre, heq]
    rw [heq] at ih
    simp only [List.flatten_cons] at ih ⊢
    simp [ih]

/-- Splitting content that starts with the terminator peels it off as a
first (empty) line. -/
theorem splitLines_term_append {T : List Char} (hT : T ≠ []) (z : List Char) :
    splitLines T (T ++ z) = T :: splitLines T z := by
  cases T with
  | nil => exact absurd rfl hT
  | cons t0 ts =>
    rw [List.cons_append, splitLines, if_pos]
    · simp [List.drop_left]
    · exact List.isPrefixOf_iff_prefix.mpr ⟨z, by simp⟩

/-- The head of a split is itself a single line. -/
theorem splitLines_head {T : List Char} (hT : T ≠ []) :
    ∀ s h t, splitLines T s = h :: t → splitLines T h = [h] := by
  intro s
  induction s using splitLines.induct T with
  | case1 =>
    intro h t hst
    rw [splitLines_nil] at hst
    exact absurd hst (by simp)
  | case2 c rest hpre ih =>
    intro h t hst
    rw [splitLines, if_pos hpre] at hst
    obtain ⟨hh, _⟩ := List.cons.injEq .. ▸ hst
    subst hh
    have := splitLines_term_append hT []
    rw [List.append_nil, splitLines_nil] at this
    exact this
  | case3 c rest hpre heq =>
    intro h t hst
    rw [splitLines, if_neg hpre, heq] at hst
    obtain ⟨hh, _⟩ := List.cons.injEq .. ▸ hst
    subst hh
    have hnp : ¬ T.isPrefixOf [c] = true := by
      intro hp
      obtain ⟨r, hr⟩ := List.isPrefixOf_iff_prefix.mp hp
      have hTc : T = [c] := by
        cases T with
        | nil => exact absurd rfl hT
        | cons t0 ts =>
          simp only [List.cons_append] at hr
          obtain ⟨h0, h1⟩ := List.cons.injEq .. ▸ hr
          have : ts = [] ∧ r = [] := by
            constructor
            · cases ts with
              | nil => rfl
              | cons u us => simp at h1
            · cases ts with
              | nil => simpa using h1
              | cons u us => simp at h1
          simp [h0, this.1]
      apply hpre
      rw [hTc]
      exact List.isPrefixOf_iff_prefix.mpr ⟨rest, rfl⟩
    rw [splitLines, if_neg hnp, splitLines_nil]
  | case4 c rest hpre l ls heq ih =>
    intro h t hst
    rw [splitLines, if_neg hpre, heq] at hst
    obtain ⟨hh, _⟩ := List.cons.injEq .. ▸ hst
    subst hh
    have hl : splitLines T l = [l] := ih l ls heq
    have hnp : ¬ T.isPrefixOf (c :: l) = true := by
      intro hp
      apply hpre
      have hflat : l ++ ls.flatten = rest := by
        have := splitLines_flatten hT rest
        rw [heq] at this
        simpa using this
      rw [List.isPrefixOf_iff_prefix] at hp ⊢
      calc T <+: c :: l := hp
        _ <+: (c :: l) ++ ls.flatten := List.prefix_append _ _
        _ = c :: rest := by rw [List.cons_append, hflat]
    rw [splitLines, if_neg hnp, hl]

/-- A prefix check only inspects an initial segment, so appending after a
long enough list does not change it. -/
theorem prefix_append_iff_of_le {T p : List Char} (s : List Char)
    (h : T.length ≤ p.length) : T <+: p ++ s ↔ T <+: p := by
  constructor
  · intro hp
    rw [List.prefix_iff_eq_take] at hp ⊢
    rw [List.take_append_of_le_length h] at hp
    exact hp
  · intro hp
    exact hp.trans (List.prefix_append p s)

/-- Mirror image of the previous lemma for suffixes. -/
theorem suffix_append_iff_of_le {T y : List Char} (x : List Char)
    (h : T.length ≤ y.length) : T <:+ x ++ y ↔ T <:+ y := by
  rw [← List.reverse_prefix, ← List.reverse_prefix, List.reverse_append]
  exact prefix_append_iff_of_le _ (by simpa using h)

/-- Replacing everything after the first line of a suffix does not change
how the part before that suffix is split: if v splits as h followed by t,
then splitting u followed by v equals splitting u followed by h, with t
appended.  This is the correctness core of residual stitching. -/
theorem splitLines_stitch {T : List Char} (hT : goodTerm T) :
    ∀ n u v h t, u.length ≤ n → splitLines T v = h :: t →
      splitLines T (u ++ v) = splitLines T (u ++ h) ++ t := by
  have hTne := goodTerm_ne_nil hT
  intro n
  induction n with
  | zero =>
    intro u v h t hu hv
    have hu0 : u = [] := List.eq_nil_of_length_eq_zero (Nat.le_zero.mp hu)
    subst hu0
    simp only [List.nil_append]
    rw [hv, splitLines_head hTne v h t hv]
    rfl
  | succ n ih =>
    intro u v h t hu hv
    cases u with
    | nil =>
      simp only [List.nil_append]
      rw [hv, splitLines_head hTne v h t hv]
      rfl
    | cons c u2 =>
      have hh : h ≠ [] :=
        ne_nil_of_mem_splitLines hTne v h (hv ▸ List.mem_cons_self h t)
      have hvflat : h ++ t.flatten = v := by
        have hf := splitLines_flatten hTne v
        rw [hv] at hf
        simpa using hf
      have hhlen : 1 ≤ h.length := by
        cases h with
        | nil => exact absurd rfl hh
        | cons a b => simp
      have hlen : T.length ≤ (c :: (u2 ++ h)).length := by
        have h2 := goodTerm_length_le hT
        simp only [List.length_cons, List.length_append]
        omega
      have hagree : T.isPrefixOf (c :: (u2 ++ v)) = T.isPrefixOf (c :: (u2 ++ h)) := by
        have hsplit : c :: (u2 ++ v) = (c :: (u2 ++ h)) ++ t.flatten := by
          rw [← hvflat]
          simp
        rw [hsplit]
        apply Bool.eq_iff_iff.mpr
        rw [List.isPrefixOf_iff_prefix, List.isPrefixOf_iff_prefix]
        exact prefix_append_iff_of_le _ hlen
      have hu2 : u2.length ≤ n := by
        simp only [List.length_cons] at hu
        omega
      by_cases hpre : T.isPrefixOf (c :: (u2 ++ v)) = true
      · have hpre2 : T.isPrefixOf (c :: (u2 ++ h)) = true := hagree ▸ hpre
        rw [List.cons_append, splitLines, if_pos hpre,
          List.cons_append, splitLines, if_pos hpre2]
        rw [List.cons_append]
        suffices hgoal : splitLines T ((u2 ++ v).drop (T.length - 1))
            = splitLines T ((u2 ++ h).drop (T.length - 1)) ++ t by
          rw [hgoal]
        rcases hT with hT1 | hT2
        · subst hT1
          simpa using ih u2 v h t hu2 hv
        · subst hT2
          cases u2 with
          | cons a u3 =>
            simp only [List.cons_append, List.length_cons, List.length_nil,
              List.drop_succ_cons, List.drop_zero]
            exact ih u3 v h t (by simp only [List.length_cons] at hu2; omega) hv
          | nil =>
            simp only [List.nil_append] at hpre hpre2 ⊢
            obtain ⟨r1, hr1⟩ := List.isPrefixOf_iff_prefix.mp hpre
            obtain ⟨r2, hr2⟩ := List.isPrefixOf_iff_prefix.mp hpre2
            simp only [List.cons_append, List.nil_append] at hr1 hr2
            obtain ⟨hc1, hv1⟩ := List.cons.injEq .. ▸ hr1
            obtain ⟨hc2, hh2⟩ := List.cons.injEq .. ▸ hr2
            rw [← hv1, ← hh2]
            have hd1 : (['\r', '\n'] : List Char).length - 1 = 1 := rfl
            rw [hd1, List.drop_one, List.drop_one, List.tail_cons, List.tail_cons]
            have hnp : ¬ (['\r', '\n'] : List Char).isPrefixOf ('\n' :: r1) = true := by
              intro hp
              obtain ⟨w, hw⟩ := List.isPrefixOf_iff_prefix.mp hp
              simp only [List.cons_append] at hw
              obtain ⟨hx, _⟩ := List.cons.injEq .. ▸ hw
              exact absurd hx (by decide)
            rw [← hv1] at hv
            rw [splitLines, if_neg hnp] at hv
            rcases hsp : splitLines (['\r', '\n'] : List Char) r1 with _ | ⟨l, ls⟩
            · rw [hsp] at hv
              simp only [List.cons.injEq] at hv
              obtain ⟨hhead, htail⟩ := hv
              have hr10 : r1 = [] := (splitLines_eq_nil_iff _ _).mp hsp
              have hr20 : r2 = [] := by
                have : '\n' :: r2 = h := hh2
                rw [← this] at hhead
                simpa using hhead.symm
              subst hr10
              subst hr20
              subst htail
              simp [splitLines_nil]
            · rw [hsp] at hv
              simp only [List.cons.injEq] at hv
              obtain ⟨hhead, htail⟩ := hv
              have hr2l : r2 = l := by
                have : '\n' :: r2 = h := hh2
                rw [← this] at hhead
                simpa using hhead.symm
              subst htail
              rw [hr2l, splitLines_head hTne r1 l ls hsp]
              rfl
      · have hpre2 : ¬ T.isPrefixOf (c :: (u2 ++ h)) = true := by
          rw [← hagree]
          exact hpre
        have hIH : splitLines T (u2 ++ v) = splitLines T (u2 ++ h) ++ t :=
          ih u2 v h t hu2 hv
        have hne2 : u2 ++ h ≠ [] := by
          simp [hh]
        rcases hsp : splitLines T (u2 ++ h) with _ | ⟨l, ls⟩
        · exact absurd hsp (splitLines_ne_nil T hne2)
        · rw [List.cons_append, splitLines, if_neg hpre,
            List.cons_append, splitLines, if_neg hpre2]
          rw [hIH, hsp]
          simp

/-- The backward pass over any block decomposition, starting from a
residual that is itself a single line (or empty), produces the tail of
the forward split of the concatenated content in reverse, and leaves the
head as the final residual. -/
theorem stitchRev_eq {T : List Char} (hT : goodTerm T) :
    ∀ M r, (r = [] ∨ splitLines T r = [r]) →
      stitchRev T M r
        = ((splitLines T (M.reverse.flatten ++ r)).tail.reverse,
           (splitLines T (M.reverse.flatten ++ r)).headD []) := by
  have hTne := goodTerm_ne_nil hT
  intro M
  induction M with
  | nil =>
    intro r hr
    simp only [List.reverse_nil, List.flatten_nil, List.nil_append]
    rcases hr with hr | hr
    · subst hr
      simp [stitchRev, splitLines_nil]
    · simp [stitchRev, hr]
  | cons b M2 ih =>
    intro r hr
    have hcontent : (b :: M2).reverse.flatten ++ r
        = M2.reverse.flatten ++ (b ++ r) := by
      simp [List.reverse_cons, List.flatten_append, List.append_assoc]
    rw [hcontent]
    rcases hbr : splitLines T (b ++ r) with _ | ⟨h, t⟩
    · have hb0 : b ++ r = [] := (splitLines_eq_nil_iff T (b ++ r)).mp hbr
      rw [stitchRev, hbr, hb0, List.append_nil]
      dsimp only
      have := ih [] (Or.inl rfl)
      rwa [List.append_nil] at this
    · have hh : h ≠ [] :=
        ne_nil_of_mem_splitLines hTne (b ++ r) h (hbr ▸ List.mem_cons_self h t)
      have hInv : splitLines T h = [h] := splitLines_head hTne (b ++ r) h t hbr
      have hIH := ih h (Or.inr hInv)
      have hcomp := splitLines_stitch hT M2.reverse.flatten.length
        M2.reverse.flatten (b ++ r) h t le_rfl hbr
      rcases hsp : splitLines T (M2.reverse.flatten ++ h) with _ | ⟨l, ls⟩
      · exact absurd hsp (splitLines_ne_nil T (by simp [hh]))
      · rw [stitchRev, hbr]
        dsimp only
        rw [hIH, hcomp, hsp]
        simp [List.reverse_append]

/-- Chunking preserves the content. -/
theorem chunkBlocks_flatten (blk : Nat) : ∀ s, (chunkBlocks blk s).flatten = s := by
  intro s
  induction s using chunkBlocks.induct blk with
  | case1 =>
    rw [chunkBlocks, if_pos rfl]
    simp
  | case2 s hs ih =>
    rw [chunkBlocks, if_neg hs]
    simp [ih, List.take_append_drop]

/-- The chunked reverse pass produces exactly the reverse of the forward
line split, for every block size. -/
theorem chunkedLines_eq {T : List Char} (hT : goodTerm T) (blk : Nat)
    (c : List Char) : chunkedLines T blk c = (splitLines T c).reverse := by
  have hTne := goodTerm_ne_nil hT
  have hstitch := stitchRev_eq hT (chunkBlocks blk c).reverse [] (Or.inl rfl)
  rw [List.reverse_reverse, chunkBlocks_flatten, List.append_nil] at hstitch
  rw [chunkedLines, hstitch]
  rcases hc : splitLines T c with _ | ⟨h, t⟩
  · simp
  · have hh : h ≠ [] :=
      ne_nil_of_mem_splitLines hTne c h (hc ▸ List.mem_cons_self h t)
    simp [hh]

/-- Content with no terminator occurrence ending strictly inside it is a
single line. -/
theorem splitLines_eq_self {T : List Char} (hT : T ≠ []) :
    ∀ s, s ≠ [] →
      (∀ i, i + T.length < s.length → ¬ T.isPrefixOf (s.drop i) = true) →
      splitLines T s = [s] := by
  intro s
  induction s with
  | nil =>
    intro h
    exact absurd rfl h
  | cons c rest ih =>
    intro _ hocc
    by_cases hpre : T.isPrefixOf (c :: rest) = true
    · have hTle : T.length ≤ (c :: rest).length :=
        (List.isPrefixOf_iff_prefix.mp hpre).length_le
      have hTeq : T.length = (c :: rest).length := by
        by_contra hne
        exact hocc 0 (by simp only [Nat.zero_add]; omega) (by simpa using hpre)
      have hsT : T = c :: rest :=
        (List.isPrefixOf_iff_prefix.mp hpre).eq_of_length hTeq
      rw [← hsT]
      have hTT := splitLines_term_append hT ([] : List Char)
      rwa [List.append_nil, splitLines_nil] at hTT
    · rw [splitLines, if_neg hpre]
      rcases hrest : rest with _ | ⟨d, rest2⟩
      · simp [splitLines_nil]
      · rw [← hrest]
        have hrne : rest ≠ [] := by
          rw [hrest]
          simp
        have hr : splitLines T rest = [rest] := by
          apply ih hrne
          intro i hi
          have := hocc (i + 1) (by simp only [List.length_cons]; omega)
          simpa [List.drop_succ_cons] using this
        rw [hr]

/-- A terminator that is a suffix of itself followed by a nonempty tail
forces the tail to be at least as long as the terminator. -/
theorem term_suffix_length_le {T : List Char} (hT : goodTerm T) (s12 : List Char)
    (hne : s12 ≠ []) (hsuf : T <:+ T ++ s12) : T.length ≤ s12.length := by
  by_contra hlt
  push_neg at hlt
  rcases hT with h | h
  · subst h
    have h0 : s12.length = 0 := by
      simp only [List.length_singleton] at hlt
      omega
    exact hne (List.eq_nil_of_length_eq_zero h0)
  · subst h
    have hlen1 : s12.length = 1 := by
      have h0 : s12.length ≠ 0 := fun h0 => hne (List.eq_nil_of_length_eq_zero h0)
      simp only [List.length_cons, List.length_nil] at hlt
      omega
    obtain ⟨d, hd⟩ := List.length_eq_one.mp hlen1
    subst hd
    obtain ⟨pre, hpre2⟩ := hsuf
    have hlenpre : pre.length = 1 := by
      have := congrArg List.length hpre2
      simp at this
      omega
    obtain ⟨a, ha⟩ := List.length_eq_one.mp hlenpre
    subst ha
    simp only [List.cons_append, List.nil_append, List.cons.injEq] at hpre2
    exact absurd hpre2.2.1 (by decide)

/-- Splitting distributes over an append whose first part ends with the
terminator. -/
theorem splitLines_append_of_term_suffix {T : List Char} (hT : goodTerm T) :
    ∀ n s1 s2, s1.length ≤ n → T <:+ s1 →
      splitLines T (s1 ++ s2) = splitLines T s1 ++ splitLines T s2 := by
  have hTne := goodTerm_ne_nil hT
  intro n
  induction n with
  | zero =>
    intro s1 s2 h1 hsuf
    have hs0 : s1 = [] := List.eq_nil_of_length_eq_zero (Nat.le_zero.mp h1)
    subst hs0
    exact absurd (List.suffix_nil.mp hsuf) hTne
  | succ n ih =>
    intro s1 s2 h1 hsuf
    rcases s1 with _ | ⟨c, s1t⟩
    · exact absurd (List.suffix_nil.mp hsuf) hTne
    · have hTlen : T.length ≤ (c :: s1t).length := hsuf.length_le
      by_cases hpre : T.isPrefixOf (c :: s1t) = true
      · obtain ⟨s12, hs12⟩ := List.isPrefixOf_iff_prefix.mp hpre
        rcases s12eq : s12 with _ | ⟨d, s12t⟩
        · have hs1T : T = c :: s1t := by
            rw [s12eq, List.append_nil] at hs12
            exact hs12
          rw [← hs1T, splitLines_term_append hTne s2]
          have hTT := splitLines_term_append hTne ([] : List Char)
          rw [List.append_nil, splitLines_nil] at hTT
          rw [hTT]
          rfl
        · have hs12ne : s12 ≠ [] := by
            rw [s12eq]
            simp
          rw [← hs12] at hsuf
          have hlen2 : T.length ≤ s12.length := term_suffix_length_le hT s12 hs12ne hsuf
          have hsuf2 : T <:+ s12 := (suffix_append_iff_of_le T hlen2).mp hsuf
          have hlens : s12.length ≤ n := by
            have hl := congrArg List.length hs12
            simp only [List.length_append, List.length_cons] at hl h1
            have hT1 : 1 ≤ T.length := by
              cases T with
              | nil => exact absurd rfl hTne
              | cons a b => simp
            omega
          have hIH := ih s12 s2 hlens hsuf2
          have happ : (c :: s1t) ++ s2 = T ++ (s12 ++ s2) := by
            rw [← hs12, List.append_assoc]
          rw [happ, splitLines_term_append hTne, hIH, ← hs12,
            splitLines_term_append hTne]
          rfl
      · have hs1T : ¬ T = c :: s1t := by
          intro hEq
          exact hpre (hEq ▸ List.isPrefixOf_iff_prefix.mpr (List.prefix_refl T))
        have hlen3 : T.length ≤ s1t.length := by
          by_contra hlt
          push_neg at hlt
          have hTeq : T.length = s1t.length + 1 := by
            simp only [List.length_cons] at hTlen
            omega
          exact hs1T (hsuf.eq_of_length (by simp [hTeq]))
        have hsuf2 : T <:+ s1t := by
          rcases List.suffix_cons_iff.mp hsuf with hEq | h2
          · exact absurd hEq hs1T
          · exact h2
        have hs1tne : s1t ≠ [] := by
          intro h0
          rw [h0] at hlen3
          simp only [List.length_nil, Nat.le_zero] at hlen3
          exact hTne (List.eq_nil_of_length_eq_zero hlen3)
        have hIH : splitLines T (s1t ++ s2) = splitLines T s1t ++ splitLines T s2 :=
          ih s1t s2 (by simp only [List.length_cons] at h1; omega) hsuf2
        have hpre3 : ¬ T.isPrefixOf (c :: (s1t ++ s2)) = true := by
          intro hp
          apply hpre
          rw [List.isPrefixOf_iff_prefix] at hp ⊢
          have hshape : c :: (s1t ++ s2) = (c :: s1t) ++ s2 := by simp
          rw [hshape] at hp
          exact (prefix_append_iff_of_le s2 hTlen).mp hp
        rcases hsp : splitLines T s1t with _ | ⟨l, ls⟩
        · exact absurd hsp (splitLines_ne_nil T hs1tne)
        · rw [List.cons_append, splitLines, if_neg hpre3, hIH, hsp,
            splitLines, if_neg hpre, hsp]
          simp

/-- A found occurrence is indeed a terminator occurrence. -/
theorem lastOcc_isPrefixOf (T c : List Char) :
    ∀ b i, lastOcc T c b = some i → T.isPrefixOf (c.drop i) = true := by
  intro b
  induction b with
  | zero =>
    intro i h
    unfold lastOcc at h
    by_cases hp : T.isPrefixOf c = true
    · rw [if_pos hp] at h
      simp only [Option.some.injEq] at h
      subst h
      simpa using hp
    · rw [if_neg hp] at h
      exact absurd h (by simp)
  | succ b ihb =>
    intro i h
    unfold lastOcc at h
    by_cases hp : T.isPrefixOf (c.drop (b + 1)) = true
    · rw [if_pos hp] at h
      simp only [Option.some.injEq] at h
      subst h
      exact hp
    · rw [if_neg hp] at h
      exact ihb i h

/-- When the search fails there is no occurrence anywhere at or below the
bound. -/
theorem lastOcc_none (T c : List Char) :
    ∀ b, lastOcc T c b = none → ∀ j, j ≤ b → ¬ T.isPrefixOf (c.drop j) = true := by
  intro b
  induction b with
  | zero =>
    intro h j hj hp
    have hj0 : j = 0 := Nat.le_zero.mp hj
    subst hj0
    unfold lastOcc at h
    rw [List.drop_zero] at hp
    rw [if_pos hp] at h
    exact absurd h (by simp)
  | succ b ihb =>
    intro h j hj
    unfold lastOcc at h
    by_cases hp : T.isPrefixOf (c.drop (b + 1)) = true
    · rw [if_pos hp] at h
      exact absurd h (by simp)
    · rw [if_neg hp] at h
      intro hpj
      rcases Nat.lt_or_ge j (b + 1) with hlt | hge
      · exact ihb h j (by omega) hpj
      · have hj1 : j = b + 1 := by omega
        subst hj1
        exact hp hpj

/-- A found occurrence is the last one at or below the bound. -/
theorem lastOcc_max (T c : List Char) :
    ∀ b i, lastOcc T c b = some i →
      ∀ j, i < j → j ≤ b → ¬ T.isPrefixOf (c.drop j) = true := by
  intro b
  induction b with
  | zero =>
    intro i h j hij hj
    have := lastOcc_le T c 0 i h
    omega
  | succ b ihb =>
    intro i h j hij hjb
    unfold lastOcc at h
    by_cases hp : T.isPrefixOf (c.drop (b + 1)) = true
    · rw [if_pos hp] at h
      simp only [Option.some.injEq] at h
      intro _
      omega
    · rw [if_neg hp] at h
      intro hpj
      rcases Nat.lt_or_ge j (b + 1) with hlt | hge
      · exact ihb i h j hij (by omega) hpj
      · have hj1 : j = b + 1 := by omega
        subst hj1
        exact hp hpj

/-- An occurrence inside a take is an occurrence in the whole list. -/
theorem isPrefixOf_drop_of_take {T c : List Char} {i k : Nat}
    (h : T.isPrefixOf ((c.take k).drop i) = true) :
    T.isPrefixOf (c.drop i) = true := by
  rw [List.isPrefixOf_iff_prefix] at h ⊢
  rw [List.drop_take] at h
  exact h.trans (List.take_prefix _ _)

/-- Unfolding: empty cursor. -/
theorem mmapGo_zero (T c : List Char) : mmapGo T c 0 = [] := by
  rw [mmapGo]
  simp

/-- Unfolding: cursor too small to hold an occurrence ending before it. -/
theorem mmapGo_small (T c : List Char) {cursor : Nat} (h0 : cursor ≠ 0)
    (h : ¬ T.length + 1 ≤ cursor) : mmapGo T c cursor = [c.take cursor] := by
  rw [mmapGo, if_neg h0, dif_neg h]

/-- Unfolding: no occurrence found. -/
theorem mmapGo_none (T c : List Char) {cursor : Nat} (h0 : cursor ≠ 0)
    (h : T.length + 1 ≤ cursor)
    (hf : lastOcc T c (cursor - T.length - 1) = none) :
    mmapGo T c cursor = [c.take cursor] := by
  rw [mmapGo, if_neg h0, dif_pos h]
  split
  · rfl
  · rename_i i heq
    rw [hf] at heq
    exact absurd heq (by simp)

/-- Unfolding: an occurrence was found. -/
theorem mmapGo_some (T c : List Char) {cursor i : Nat} (h0 : cursor ≠ 0)
    (h : T.length + 1 ≤ cursor)
    (hf : lastOcc T c (cursor - T.length - 1) = some i) :
    mmapGo T c cursor
      = (c.drop (i + T.length)).take (cursor - (i + T.length))
          :: mmapGo T c (i + T.length) := by
  rw [mmapGo, if_neg h0, dif_pos h]
  split
  · rename_i heq
    rw [hf] at heq
    exact absurd heq (by simp)
  · rename_i j heq
    rw [hf] at heq
    simp only [Option.some.injEq] at heq
    subst heq
    rfl

/-- The backward mapped walk up to any cursor emits the reverse of the
forward split of the prefix before the cursor. -/
theorem mmapGo_eq {T : List Char} (hT : goodTerm T) (c : List Char) :
    ∀ cursor, cursor ≤ c.length →
      mmapGo T c cursor = (splitLines T (c.take cursor)).reverse := by
  have hTne := goodTerm_ne_nil hT
  have hT1 : 1 ≤ T.length := by
    cases T with
    | nil => exact absurd rfl hTne
    | cons a b => simp
  intro cursor
  induction cursor using mmapGo.induct T c with
  | case1 =>
    intro _
    rw [mmapGo_zero]
    simp [splitLines_nil]
  | case2 cursor h0 h hf =>
    intro hcle
    rw [mmapGo_none T c h0 h hf]
    have hlen : (c.take cursor).length = cursor := by
      simp only [List.length_take]
      omega
    have hs : splitLines T (c.take cursor) = [c.take cursor] := by
      apply splitLines_eq_self hTne
      · intro hnil
        have := congrArg List.length hnil
        rw [hlen] at this
        simp only [List.length_nil] at this
        exact h0 this
      · intro i hi hp
        rw [hlen] at hi
        have hocc : T.isPrefixOf (c.drop i) = true := isPrefixOf_drop_of_take hp
        exact lastOcc_none T c _ hf i (by omega) hocc
    rw [hs]
    rfl
  | case3 cursor h0 h i hf ih =>
    intro hcle
    have hile := lastOcc_le T c _ i hf
    have hocc := lastOcc_isPrefixOf T c _ i hf
    have hmlt : i + T.length < cursor := by omega
    rw [mmapGo_some T c h0 h hf, ih (by omega)]
    have hcm : (i + T.length) + (cursor - (i + T.length)) = cursor := by omega
    have htake := List.take_add c (i + T.length) (cursor - (i + T.length))
    rw [hcm] at htake
    have hsuf : T <:+ c.take (i + T.length) := by
      have hTtake : (c.drop i).take T.length = T := by
        obtain ⟨r, hr⟩ := List.isPrefixOf_iff_prefix.mp hocc
        rw [← hr]
        exact List.take_left T r
      have h2 : c.take (i + T.length) = c.take i ++ (c.drop i).take T.length :=
        List.take_add c i T.length
      rw [h2, hTtake]
      exact List.suffix_append (c.take i) T
    have hs2len : ((c.drop (i + T.length)).take (cursor - (i + T.length))).length
        = cursor - (i + T.length) := by
      simp only [List.length_take, List.length_drop]
      omega
    have hs2ne : (c.drop (i + T.length)).take (cursor - (i + T.length)) ≠ [] := by
      intro h0'
      have := congrArg List.length h0'
      rw [hs2len] at this
      simp only [List.length_nil] at this
      omega
    have hs2 : splitLines T ((c.drop (i + T.length)).take (cursor - (i + T.length)))
        = [(c.drop (i + T.length)).take (cursor - (i + T.length))] := by
      apply splitLines_eq_self hTne _ hs2ne
      intro j hj hp
      rw [hs2len] at hj
      have hp2 := isPrefixOf_drop_of_take hp
      rw [List.drop_drop] at hp2
      exact lastOcc_max T c _ i hf ((i + T.length) + j) (by omega) (by omega) hp2
    have happ := splitLines_append_of_term_suffix hT (c.take (i + T.length)).length
      (c.take (i + T.length)) ((c.drop (i + T.length)).take (cursor - (i + T.length)))
      le_rfl hsuf
    rw [htake, happ, hs2, List.reverse_append]
    simp
  | case4 cursor h0 h =>
    intro hcle
    rw [mmapGo_small T c h0 h]
    have hlen : (c.take cursor).length = cursor := by
      simp only [List.length_take]
      omega
    have hs : splitLines T (c.take cursor) = [c.take cursor] := by
      apply splitLines_eq_self hTne
      · intro hnil
        have := congrArg List.length hnil
        rw [hlen] at this
        simp only [List.length_nil] at this
        exact h0 this
      · intro j hj hp
        rw [hlen] at hj
        omega
    rw [hs]
    rfl

/-- The mapped reverse walk over the whole file is the reverse of the
forward line split. -/
theorem mmapReverse_eq {T : List Char} (hT : goodTerm T) (c : List Char) :
    mmapReverse T c = (splitLines T c).reverse := by
  rw [mmapReverse, mmapGo_eq hT c c.length le_rfl, List.take_length]

/-! ### Line-ending detection on clean content -/

/-- A list of line bodies free of terminator characters. -/
def cleanLines (L : List (List Char)) : Prop :=
  ∀ l ∈ L, ∀ ch ∈ l, cleanChar ch

instance (L : List (List Char)) : Decidable (cleanLines L) :=
  inferInstanceAs (Decidable (∀ l ∈ L, ∀ ch ∈ l, cleanChar ch))

/-- A carriage return directly followed by a newline is found wherever it
sits. -/
theorem containsCRLF_append (y : List Char) :
    ∀ x, containsCRLF (x ++ '\r' :: '\n' :: y) = true := by
  intro x
  induction x with
  | nil =>
    simp [containsCRLF]
  | cons a x2 ih =>
    cases x2 with
    | nil =>
      simp [containsCRLF]
    | cons b x3 =>
      simp only [List.cons_append, List.append_eq, containsCRLF] at ih ⊢
      rw [ih]
      simp

/-- Without any carriage return there is no Windows terminator. -/
theorem containsCRLF_eq_false {s : List Char} (h : '\r' ∉ s) :
    containsCRLF s = false := by
  induction s with
  | nil => rfl
  | cons a s2 ih =>
    cases s2 with
    | nil => rfl
    | cons b s3 =>
      have ha : a ≠ '\r' := fun hEq => h (hEq ▸ List.mem_cons_self a _)
      have h2 : '\r' ∉ b :: s3 := fun hm => h (List.mem_cons_of_mem a hm)
      rw [containsCRLF, ih h2]
      simp [ha]

/-- No carriage return occurs in a Unix file with clean bodies and a
clean final fragment. -/
theorem cr_not_mem_join_unix {L : List (List Char)} {f : List Char}
    (hL : cleanLines L) (hf : ∀ ch ∈ f, cleanChar ch) :
    '\r' ∉ joinLines .unix L ++ f := by
  intro hmem
  rcases List.mem_append.mp hmem with hm | hm
  · rw [joinLines] at hm
    rcases List.mem_flatten.mp hm with ⟨l2, hl2, hcl⟩
    rcases List.mem_map.mp hl2 with ⟨l, hl, hleq⟩
    subst hleq
    rcases List.mem_append.mp hcl with hb | ht
    · exact (hL l hl '\r' hb).2 rfl
    · rw [LineEnding.term] at ht
      simp only [List.mem_singleton] at ht
      exact absurd ht (by decide)
  · exact (hf '\r' hm).2 rfl

/-- A newline occurs in any file with at least one line. -/
theorem lf_mem_join {e : LineEnding} {L : List (List Char)} (f : List Char)
    (hL0 : L ≠ []) : '\n' ∈ joinLines e L ++ f := by
  rcases L with _ | ⟨l, L2⟩
  · exact absurd rfl hL0
  · apply List.mem_append.mpr
    left
    rw [joinLines]
    apply List.mem_flatten.mpr
    refine ⟨l ++ e.term, List.mem_map.mpr ⟨l, List.mem_cons_self l L2, rfl⟩, ?_⟩
    apply List.mem_append.mpr
    right
    cases e
    · simp [LineEnding.term]
    · simp [LineEnding.term]

/-- The sniffer detects the terminator a clean-bodied nonempty file was
written with, with no warning. -/
theorem lineEndingScan_join {e : LineEnding} {L : List (List Char)} {f : List Char}
    (hL : cleanLines L) (hf : ∀ ch ∈ f, cleanChar ch) (hL0 : L ≠ []) :
    lineEndingScan (joinLines e L ++ f) = .ok (e, []) := by
  have hlf : '\n' ∈ joinLines e L ++ f := lf_mem_join f hL0
  have hne : joinLines e L ++ f ≠ [] := by
    intro h0
    rw [h0] at hlf
    exact absurd hlf (List.not_mem_nil '\n')
  rw [lineEndingScan]
  rw [if_neg (by simpa [List.isEmpty_iff] using hne)]
  cases e
  · rw [if_neg ?hcr]
    case hcr =>
      rw [containsCRLF_eq_false (cr_not_mem_join_unix hL hf)]
      simp
    rw [if_pos (by rwa [List.elem_iff])]
  · rcases L with _ | ⟨l, L2⟩
    · exact absurd rfl hL0
    · rw [if_pos ?hcr]
      case hcr =>
        have hshape : joinLines .windows (l :: L2) ++ f
            = l ++ ('\r' :: '\n' :: (joinLines .windows L2 ++ f)) := by
          rw [joinLines, List.map_cons, List.flatten_cons, joinLines]
          simp [LineEnding.term]
        rw [hshape]
        exact containsCRLF_append _ l

/-- Splitting a clean fragment alone keeps it as at most one line. -/
theorem splitLines_clean_frag {e : LineEnding} {f : List Char}
    (hf : ∀ ch ∈ f, cleanChar ch) :
    splitLines e.term f = if f = [] then [] else [f] := by
  rcases hfe : f with _ | ⟨c, f2⟩
  · simp [splitLines_nil]
  · rw [← hfe]
    rw [if_neg (by rw [hfe]; simp)]
    apply splitLines_eq_self (goodTerm_ne_nil e.term_goodTerm) f (by rw [hfe]; simp)
    intro i hi hp
    rw [List.isPrefixOf_iff_prefix] at hp
    have hdl : (f.drop i).length > 0 := by
      have := hp.length_le
      have h1 : 1 ≤ e.term.length := by cases e <;> simp [LineEnding.term]
      simp only [List.length_drop] at this ⊢
      omega
    rcases hdi : f.drop i with _ | ⟨d, r⟩
    · rw [hdi] at hdl
      simp at hdl
    · have hd : d ∈ f := by
        have : d ∈ f.drop i := by
          rw [hdi]
          exact List.mem_cons_self d r
        exact List.drop_subset i f this
      rw [hdi] at hp
      obtain ⟨w, hw⟩ := hp
      cases e
      · rw [LineEnding.term] at hw
        simp only [List.cons_append, List.nil_append, List.cons.injEq] at hw
        exact (hf d hd).1 hw.1.symm
      · rw [LineEnding.term] at hw
        simp only [List.cons_append, List.cons.injEq] at hw
        exact (hf d hd).2 hw.1.symm

/-- A terminator cannot start at a clean character. -/
theorem not_isPrefixOf_cons_clean {e : LineEnding} {c : Char} (hc : cleanChar c)
    (s : List Char) : ¬ e.term.isPrefixOf (c :: s) = true := by
  intro hp
  obtain ⟨r, hr⟩ := List.isPrefixOf_iff_prefix.mp hp
  cases e
  · rw [LineEnding.term] at hr
    simp only [List.cons_append, List.nil_append, List.cons.injEq] at hr
    exact hc.1 hr.1.symm
  · rw [LineEnding.term] at hr
    simp only [List.cons_append, List.cons.injEq] at hr
    exact hc.2 hr.1.symm

/-- Splitting a clean line followed by its terminator peels it off. -/
theorem splitLines_clean_cons {e : LineEnding} {l : List Char}
    (hl : ∀ ch ∈ l, cleanChar ch) (z : List Char) :
    splitLines e.term (l ++ e.term ++ z) = (l ++ e.term) :: splitLines e.term z := by
  induction l with
  | nil =>
    simp only [List.nil_append]
    exact splitLines_term_append (goodTerm_ne_nil e.term_goodTerm) z
  | cons c l2 ih =>
    have hc : cleanChar c := hl c (List.mem_cons_self c l2)
    have hl2 : ∀ ch ∈ l2, cleanChar ch := fun ch hm => hl ch (List.mem_cons_of_mem c hm)
    have hIH := ih hl2
    have hshape : (c :: l2) ++ e.term ++ z = c :: (l2 ++ e.term ++ z) := by simp
    rw [hshape, splitLines,
      if_neg (not_isPrefixOf_cons_clean hc (l2 ++ e.term ++ z)), hIH]
    simp

/-- The forward split of a clean-bodied file recovers its lines, each with
its terminator, plus the unterminated final fragment if any. -/
theorem splitLines_joinLines {e : LineEnding} {L : List (List Char)} {f : List Char}
    (hL : cleanLines L) (hf : ∀ ch ∈ f, cleanChar ch) :
    splitLines e.term (joinLines e L ++ f)
      = L.map (fun l => l ++ e.term) ++ (if f = [] then [] else [f]) := by
  induction L with
  | nil =>
    rw [joinLines]
    simp only [List.map_nil, List.flatten_nil, List.nil_append]
    exact splitLines_clean_frag hf
  | cons l L2 ih =>
    have hl : ∀ ch ∈ l, cleanChar ch := hL l (List.mem_cons_self l L2)
    have hL2 : cleanLines L2 := fun x hx => hL x (List.mem_cons_of_mem l hx)
    have hshape : joinLines e (l :: L2) ++ f
        = l ++ e.term ++ (joinLines e L2 ++ f) := by
      rw [joinLines, List.map_cons, List.flatten_cons, joinLines]
      simp [List.append_assoc]
    rw [hshape, splitLines_clean_cons hl, ih hL2]
    simp

/-! ### Reader-level lemmas -/

/-- The chunked reader on a stream whose ending is detected produces the
reverse of the forward split, with the sniffer and block-size warnings. -/
theorem reverse_readline_stream {k : StreamKind} {c : List Char} {e : LineEnding}
    {w : List Warning} (maxMem : Nat) (hscan : lineEndingScan c = .ok (e, w)) :
    reverse_readline (.stream k c) maxMem
      = .ok ((splitLines e.term c).reverse, w ++ (effectiveBlockSize maxMem).2) := by
  rw [reverse_readline, hscan]
  dsimp only
  rw [chunkedLines_eq e.term_goodTerm]

/-- The mapped reader on a nonempty file whose ending is detected produces
the reverse of the forward split, with the sniffer warnings. -/
theorem reverse_readfile_spec {c : List Char} {e : LineEnding} {w : List Warning}
    (hscan : lineEndingScan c = .ok (e, w)) (hne : c ≠ []) :
    reverse_readfile c = .ok ((splitLines e.term c).reverse, w) := by
  rw [reverse_readfile, hscan]
  dsimp only
  rw [if_neg (by simpa [List.isEmpty_iff] using hne), mmapReverse_eq e.term_goodTerm]

/-- The sniffer result on empty content. -/
theorem lineEndingScan_nil : lineEndingScan [] = .ok (.unix, [.fileEmpty]) := rfl

/-- C1: for every file whose content is a sequence of lines each written
with the terminator of the line ending e (bodies free of terminator
characters), the chunked reverse reader over an open stream and the
mapped reverse reader over the path both yield exactly the reverse of the
file's forward line sequence, for every value of max_mem. -/
theorem c1_round_trip (e : LineEnding) (L : List (List Char)) (k : StreamKind)
    (maxMem : Nat) (hL : cleanLines L) :
    (reverse_readline (.stream k (joinLines e L)) maxMem).map Prod.fst
      = .ok (forwardLines e (joinLines e L)).reverse
    ∧ (reverse_readfile (joinLines e L)).map Prod.fst
      = .ok (forwardLines e (joinLines e L)).reverse := by
  rcases hLe : L with _ | ⟨l0, L2⟩
  · have hjoin : joinLines e ([] : List (List Char)) = [] := by
      rw [joinLines]
      simp
    rw [hjoin]
    constructor
    · rw [reverse_readline_stream maxMem lineEndingScan_nil]
      rw [forwardLines, splitLines_nil, splitLines_nil]
      rfl
    · rw [reverse_readfile, lineEndingScan_nil]
      dsimp only
      rw [forwardLines, splitLines_nil]
      simp [Except.map]
  · rw [← hLe]
    have hL0 : L ≠ [] := by
      rw [hLe]
      simp
    have hscan : lineEndingScan (joinLines e L) = .ok (e, []) := by
      have := lineEndingScan_join (e := e) (f := []) hL (by simp) hL0
      rwa [List.append_nil] at this
    have hne : joinLines e L ≠ [] := by
      have hlf := lf_mem_join (e := e) [] hL0
      rw [List.append_nil] at hlf
      intro h0
      rw [h0] at hlf
      exact absurd hlf (List.not_mem_nil '\n')
    constructor
    · rw [reverse_readline_stream maxMem hscan, forwardLines]
      rfl
    · rw [reverse_readfile_spec hscan hne, forwardLines]
      rfl

/-- C2: every line emitted by a reverse reader, except possibly the
chronologically-first one (the first emitted, which is the last line of
the file), ends with exactly the detected terminator, and that first
emitted line omits the terminator exactly when the file lacked a trailing
terminator.  The file holds at least one terminated line (so detection
succeeds), followed by an optional unterminated clean fragment. -/
theorem c2_terminator_preservation (e : LineEnding) (L : List (List Char))
    (f : List Char) (k : StreamKind) (maxMem : Nat)
    (hL : cleanLines L) (hf : ∀ ch ∈ f, cleanChar ch) (hL0 : L ≠ []) :
    ∃ lines,
      (reverse_readline (.stream k (joinLines e L ++ f)) maxMem).map Prod.fst
        = .ok lines
      ∧ (reverse_readfile (joinLines e L ++ f)).map Prod.fst = .ok lines
      ∧ (∀ l ∈ lines.tail, e.term.isSuffixOf l = true)
      ∧ (∀ h, lines.head? = some h → (e.term.isSuffixOf h = false ↔ f ≠ [])) := by
  have hscan := lineEndingScan_join (e := e) hL hf hL0
  have hne : joinLines e L ++ f ≠ [] := by
    have hlf := lf_mem_join (e := e) f hL0
    intro h0
    rw [h0] at hlf
    exact absurd hlf (List.not_mem_nil '\n')
  have hsplit := splitLines_joinLines (e := e) hL hf
  refine ⟨(splitLines e.term (joinLines e L ++ f)).reverse, ?_, ?_, ?_, ?_⟩
  · rw [reverse_readline_stream maxMem hscan]
    rfl
  · rw [reverse_readfile_spec hscan hne]
    rfl
  · intro l hl
    rw [List.tail_reverse_eq_reverse_dropLast, List.mem_reverse, hsplit] at hl
    have hmem : l ∈ L.map (fun l0 => l0 ++ e.term) := by
      split at hl
      · rw [List.append_nil] at hl
        exact (List.dropLast_sublist _).subset hl
      · rwa [List.dropLast_concat] at hl
    rcases List.mem_map.mp hmem with ⟨l0, _, hleq⟩
    subst hleq
    exact List.isSuffixOf_iff_suffix.mpr (List.suffix_append l0 e.term)
  · intro h hh
    rw [List.head?_reverse, hsplit] at hh
    split at hh
    · rename_i hfe
      rw [List.append_nil] at hh
      have hmem : h ∈ L.map (fun l0 => l0 ++ e.term) := List.mem_of_mem_getLast? hh
      rcases List.mem_map.mp hmem with ⟨l0, _, hleq⟩
      subst hleq
      have htrue : (e.term.isSuffixOf (l0 ++ e.term)) = true :=
        List.isSuffixOf_iff_suffix.mpr (List.suffix_append l0 e.term)
      rw [htrue]
      constructor
      · intro hfalse
        simp at hfalse
      · intro hfne
        exact absurd hfe hfne
    · rename_i hfe
      rw [List.getLast?_concat] at hh
      simp only [Option.some.injEq] at hh
      subst hh
      have hnosuf : ¬ e.term <:+ f := by
        intro hsuf
        obtain ⟨pre, hpre⟩ := hsuf
        have hlfmem : '\n' ∈ f := by
          rw [← hpre]
          apply List.mem_append.mpr
          right
          cases e <;> simp [LineEnding.term]
        exact (hf '\n' hlfmem).1 rfl
      have hsb : e.term.isSuffixOf f = false := by
        rcases hb : e.term.isSuffixOf f
        · rfl
        · exact absurd (List.isSuffixOf_iff_suffix.mp hb) hnosuf
      rw [hsb]
      simp [hfe]

/-- C3: reversing a file holding a first line, an empty line and a third
line, each terminated with the terminator of e, yields exactly the three
lines in reverse, the empty logical line kept verbatim, for both readers
and for every max_mem. -/
theorem c3_empty_line_fidelity (e : LineEnding) (k : StreamKind) (maxMem : Nat) :
    (reverse_readline
        (.stream k ("line1".toList ++ e.term ++ e.term ++ "line3".toList ++ e.term))
        maxMem).map Prod.fst
      = .ok ["line3".toList ++ e.term, e.term, "line1".toList ++ e.term]
    ∧ (reverse_readfile
        ("line1".toList ++ e.term ++ e.term ++ "line3".toList ++ e.term)).map Prod.fst
      = .ok ["line3".toList ++ e.term, e.term, "line1".toList ++ e.term] := by
  have hjoin : joinLines e ["line1".toList, [], "line3".toList]
      = "line1".toList ++ e.term ++ e.term ++ "line3".toList ++ e.term := by
    rw [joinLines]
    simp
  have hL : cleanLines ["line1".toList, [], "line3".toList] := by decide
  have hc1 := c1_round_trip e ["line1".toList, [], "line3".toList] k maxMem hL
  rw [hjoin] at hc1
  have hfwd : forwardLines e
      ("line1".toList ++ e.term ++ e.term ++ "line3".toList ++ e.term)
      = ["line1".toList ++ e.term, e.term, "line3".toList ++ e.term] := by
    rw [forwardLines, ← hjoin]
    have := splitLines_joinLines (e := e) (f := []) hL (by simp)
    rw [List.append_nil] at this
    rw [this]
    simp
  rw [hfwd] at hc1
  simpa using hc1

/-- C5: on non-empty content the sniffer returns Windows when the probed
bytes contain a carriage return followed by a newline, otherwise Unix
when they contain a bare newline; and the result is the same whether the
input is a path, a text stream, a binary stream, or a gzip/bzip2 stream
over the same content, since every input kind is scanned identically. -/
theorem c5_line_ending_detection (c : List Char) (hne : c ≠ []) :
    (∀ i : FileInput, i.contentOf = some c → _get_line_ending i = lineEndingScan c)
    ∧ (containsCRLF c = true → lineEndingScan c = .ok (.windows, []))
    ∧ (containsCRLF c = false → c.contains '\n' = true →
        lineEndingScan c = .ok (.unix, [])) := by
  have hem : ¬ c.isEmpty = true := by
    simpa [List.isEmpty_iff] using hne
  refine ⟨?_, ?_, ?_⟩
  · intro i hi
    cases i with
    | path pk cc =>
      simp only [FileInput.contentOf, Option.some.injEq] at hi
      subst hi
      rfl
    | stream sk cc =>
      simp only [FileInput.contentOf, Option.some.injEq] at hi
      subst hi
      rfl
    | other t =>
      simp [FileInput.contentOf] at hi
  · intro hcr
    rw [lineEndingScan, if_neg hem, if_pos hcr]
  · intro hcr hlf
    rw [lineEndingScan, if_neg hem, if_neg (by simp [hcr]), if_pos hlf]

/-- C6: on a zero-byte input the sniffer warns that the file is empty and
returns Unix; a chunked reverse read of an empty stream yields no lines
with the empty-file warning occurring exactly once in its warning list,
and the mapped reader on an empty path yields no lines with the
empty-file warning plus the mapping-skipped warning; no error is
raised. -/
theorem c6_empty_file (maxMem : Nat) (k : StreamKind) :
    lineEndingScan [] = .ok (.unix, [.fileEmpty])
    ∧ (∃ w, reverse_readline (.stream k []) maxMem = .ok ([], w)
        ∧ w.count .fileEmpty = 1)
    ∧ reverse_readfile [] = .ok ([], [.fileEmpty, .mappingSkipped]) := by
  refine ⟨rfl, ?_, rfl⟩
  refine ⟨[Warning.fileEmpty] ++ (effectiveBlockSize maxMem).2, ?_, ?_⟩
  · rw [reverse_readline_stream maxMem lineEndingScan_nil, splitLines_nil]
    rfl
  · simp only [effectiveBlockSize]
    split
    · decide
    · simp only [List.append_nil]
      decide

/-- C7: non-empty content containing neither a carriage return followed
by a newline nor a bare newline makes the sniffer fail with the
UnknownLineEnding error, never return a default, whatever input kind
carries the content. -/
theorem c7_unknown_line_ending (c : List Char) (hne : c ≠ [])
    (hcr : containsCRLF c = false) (hlf : c.contains '\n' = false) :
    lineEndingScan c = .error .unknownLineEnding
    ∧ ∀ i : FileInput, i.contentOf = some c →
        _get_line_ending i = .error .unknownLineEnding := by
  have hscan : lineEndingScan c = .error .unknownLineEnding := by
    rw [lineEndingScan, if_neg (by simpa [List.isEmpty_iff] using hne),
      if_neg (by simp [hcr]), if_neg (by rw [hlf]; simp)]
  refine ⟨hscan, ?_⟩
  intro i hi
  cases i with
  | path pk cc =>
    simp only [FileInput.contentOf, Option.some.injEq] at hi
    subst hi
    exact hscan
  | stream sk cc =>
    simp only [FileInput.contentOf, Option.some.injEq] at hi
    subst hi
    exact hscan
  | other t =>
    simp [FileInput.contentOf] at hi

/-- C7 witness: the test file content ending in a lone record separator
has no recognized terminator, and the sniffer rejects it. -/
theorem c7_unknown_line_ending_witness :
    lineEndingScan "This is a test\x1E".toList = .error .unknownLineEnding :=
  (c7_unknown_line_ending "This is a test\x1E".toList (by decide) (by decide)
    (by decide)).1

/-- C8: calling the chunked reverse reader with a path value, whether a
plain string or a structured path, fails with the ExpectedStreamGotPath
error before any line is produced, for every content and max_mem. -/
theorem c8_stream_only (pk : PathKind) (c : List Char) (maxMem : Nat) :
    reverse_readline (.path pk c) maxMem = .error .expectedStreamGotPath := rfl

/-- While the marker is held and never released, the acquire loop always
times out with the configured path and timeout, and every sleep it
performs is the poll interval. -/
theorem acquireGo_held {held : List String} {p : String} (hp : p ∈ held)
    (timeout poll : Nat) : ∀ elapsed,
      (acquireGo held p timeout poll elapsed).1 = .error (.lockTimeout p timeout)
      ∧ ∀ s ∈ (acquireGo held p timeout poll elapsed).2, s = poll := by
  have H : ∀ n elapsed, timeout + 1 - elapsed ≤ n →
      (acquireGo held p timeout poll elapsed).1 = .error (.lockTimeout p timeout)
      ∧ ∀ s ∈ (acquireGo held p timeout poll elapsed).2, s = poll := by
    intro n
    induction n with
    | zero =>
      intro elapsed hle
      rw [acquireGo, if_pos hp, if_pos (by omega)]
      exact ⟨rfl, by simp⟩
    | succ n ih =>
      intro elapsed hle
      by_cases hgt : elapsed > timeout
      · rw [acquireGo, if_pos hp, if_pos hgt]
        exact ⟨rfl, by simp⟩
      · rw [acquireGo, if_pos hp, if_neg hgt]
        dsimp only
        obtain ⟨h1, h2⟩ := ih (elapsed + max poll 1) (by omega)
        refine ⟨h1, ?_⟩
        intro s hs
        rcases List.mem_cons.mp hs with h | h
        · exact h
        · exact h2 s h
  intro elapsed
  exact H (timeout + 1 - elapsed) elapsed le_rfl

/-- C4: while a lock on a marker path is held and not released, a second
acquire on the same path never succeeds: it sleeps the poll interval
between retries until the elapsed time exceeds the timeout and then
reports a LockTimeout error naming the marker path and the configured
timeout; and an acquire that succeeds had found the marker absent and
creates it, so that at most one holder per marker path acquires at a
time. -/
theorem c4_lock_exclusivity (p : String) (held : List String)
    (timeout poll : Nat) :
    (p ∈ held →
      (acquire held p timeout poll).1 = .error (.lockTimeout p timeout)
      ∧ ∀ s ∈ (acquire held p timeout poll).2, s = poll)
    ∧ (p ∉ held →
      (acquire held p timeout poll).1 = .ok (p :: held)
      ∧ (acquire (p :: held) p timeout poll).1
          = .error (.lockTimeout p timeout)) := by
  constructor
  · intro hp
    exact acquireGo_held hp timeout poll 0
  · intro hp
    constructor
    · rw [acquire, acquireGo, if_neg hp]
    · exact (acquireGo_held (List.mem_cons_self p held) timeout poll 0).1

/-- C4 witness: a concrete held marker forces the timeout error. -/
theorem c4_lock_exclusivity_witness :
    (acquire ["work.lock"] "work.lock" 3 1).1
      = .error (.lockTimeout "work.lock" 3) :=
  ((c4_lock_exclusivity "work.lock" ["work.lock"] 3 1).1 (by decide)).1

/-- The validation loop reports a KeyError as soon as some key of the
list is new while adding is disabled. -/
theorem checkKeys_some (d : ControlledDict K V) (hadd : d.allow_add = false) :
    ∀ ks : List K, (∃ k ∈ ks, hasKey d.data k = false) →
      d.checkKeys ks = some .keyError := by
  intro ks
  induction ks with
  | nil =>
    rintro ⟨k, hk, _⟩
    exact absurd hk (List.not_mem_nil k)
  | cons k0 ks2 ih =>
    rintro ⟨k, hk, hnk⟩
    rw [ControlledDict.checkKeys]
    by_cases h0 : hasKey d.data k0 = false
    · rw [if_pos (by simp [h0, hadd])]
    · have h0t : hasKey d.data k0 = true := by
        rcases hb : hasKey d.data k0
        · exact absurd hb h0
        · rfl
      rw [if_neg (by simp [h0t])]
      rcases List.mem_cons.mp hk with hEq | hmem
      · subst hEq
        exact absurd hnk h0
      · exact ih ⟨k, hmem, hnk⟩

/-- C9: on a ControlledDict whose class disables adding keys, update with
a mapping holding at least one key not already present raises KeyError
and returns the dictionary completely unchanged: every key is validated
before any mutation is applied. -/
theorem c9_update_atomicity (d : ControlledDict K V) (m : List (K × V))
    (hadd : d.allow_add = false)
    (hnew : ∃ k ∈ m.map Prod.fst, hasKey d.data k = false) :
    d.update m = (d, some .keyError) := by
  rw [ControlledDict.update, checkKeys_some d hadd (m.map Prod.fst) hnew]

/-- C9 witness: updating an add-disabled dictionary with a fresh key is
rejected and the contents survive untouched. -/
theorem c9_update_atomicity_witness :
    ControlledDict.update ⟨[(1, 10)], false, true, true⟩ [(1, 11), (2, 20)]
      = ((⟨[(1, 10)], false, true, true⟩ : ControlledDict Nat Nat),
          some .keyError) :=
  c9_update_atomicity ⟨[(1, 10)], false, true, true⟩ [(1, 11), (2, 20)] rfl
    ⟨2, by decide, by decide⟩

/-- The binary search loop keeps everything below the result smaller than
the key and everything from the result on not smaller, and stays inside
the search interval. -/
theorem bisectLeftGo_spec (a : List Int) (x : Int)
    (hs : List.Sorted (· ≤ ·) a) :
    ∀ n lo hi, hi - lo ≤ n → lo ≤ hi → hi ≤ a.length →
      (∀ j, j < lo → a.getD j 0 < x) →
      (∀ j, hi ≤ j → j < a.length → ¬ a.getD j 0 < x) →
      lo ≤ bisectLeftGo a x lo hi ∧ bisectLeftGo a x lo hi ≤ hi
      ∧ (∀ j, j < bisectLeftGo a x lo hi → a.getD j 0 < x)
      ∧ (∀ j, bisectLeftGo a x lo hi ≤ j → j < a.length →
          ¬ a.getD j 0 < x) := by
  intro n
  induction n with
  | zero =>
    intro lo hi hn hlohi hhi hpre hpost
    have hEq : lo = hi := by omega
    rw [bisectLeftGo, if_neg (by omega)]
    refine ⟨le_rfl, by omega, hpre, ?_⟩
    intro j hj hjl
    exact hpost j (by omega) hjl
  | succ n ih =>
    intro lo hi hn hlohi hhi hpre hpost
    by_cases hlt : lo < hi
    · rw [bisectLeftGo, if_pos hlt]
      dsimp only
      have hmlo : lo ≤ (lo + hi) / 2 := by omega
      have hmhi : (lo + hi) / 2 < hi := by omega
      have hmlen : (lo + hi) / 2 < a.length := by omega
      by_cases hcmp : a.getD ((lo + hi) / 2) 0 < x
      · rw [if_pos hcmp]
        have hpre2 : ∀ j, j < (lo + hi) / 2 + 1 → a.getD j 0 < x := by
          intro j hj
          rcases Nat.lt_or_ge j lo with hjlo | hjlo
          · exact hpre j hjlo
          · have hjlen : j < a.length := by omega
            have hle : a.getD j 0 ≤ a.getD ((lo + hi) / 2) 0 := by
              rw [List.getD_eq_getElem a 0 hjlen, List.getD_eq_getElem a 0 hmlen]
              have hrel := hs.rel_get_of_le
                (a := ⟨j, hjlen⟩) (b := ⟨(lo + hi) / 2, hmlen⟩)
                (by simp only [Fin.mk_le_mk]; omega)
              simpa using hrel
            omega
        obtain ⟨h1, h2, h3, h4⟩ :=
          ih ((lo + hi) / 2 + 1) hi (by omega) (by omega) hhi hpre2 hpost
        exact ⟨by omega, h2, h3, h4⟩
      · rw [if_neg hcmp]
        have hpost2 : ∀ j, (lo + hi) / 2 ≤ j → j < a.length →
            ¬ a.getD j 0 < x := by
          intro j hj hjlen
          have hle : a.getD ((lo + hi) / 2) 0 ≤ a.getD j 0 := by
            rw [List.getD_eq_getElem a 0 hjlen, List.getD_eq_getElem a 0 hmlen]
            have hrel := hs.rel_get_of_le
              (a := ⟨(lo + hi) / 2, hmlen⟩) (b := ⟨j, hjlen⟩)
              (by simp only [Fin.mk_le_mk]; omega)
            simpa using hrel
          omega
        obtain ⟨h1, h2, h3, h4⟩ :=
          ih lo ((lo + hi) / 2) (by omega) (by omega) (by omega) hpre hpost2
        exact ⟨h1, by omega, h3, h4⟩
    · rw [bisectLeftGo, if_neg hlt]
      refine ⟨le_rfl, hlohi, hpre, ?_⟩
      intro j hj hjl
      exact hpost j (by omega) hjl

/-- C10: over a list sorted in non-decreasing order, index with atol
omitted returns the smallest index holding a value equal to x when x
occurs, and raises ValueError when x does not occur. -/
theorem c10_bisect_index (a : List Int) (x : Int)
    (hs : List.Sorted (· ≤ ·) a) :
    (x ∈ a →
      index a x = .ok (bisect_left a x)
      ∧ bisect_left a x < a.length
      ∧ a.getD (bisect_left a x) 0 = x
      ∧ ∀ j, j < bisect_left a x → a.getD j 0 ≠ x)
    ∧ (x ∉ a → index a x = .error .valueError) := by
  obtain ⟨h1, h2, h3, h4⟩ := bisectLeftGo_spec a x hs a.length 0 a.length
    (by omega) (by omega) le_rfl
    (fun j hj => absurd hj (Nat.not_lt_zero j))
    (fun j hj hjl => absurd hjl (by omega))
  rw [show bisectLeftGo a x 0 a.length = bisect_left a x from rfl] at h1 h2 h3 h4
  constructor
  · intro hmem
    obtain ⟨idx, hidx, hval⟩ := List.mem_iff_getElem.mp hmem
    have hidxge : bisect_left a x ≤ idx := by
      by_contra hlt
      push_neg at hlt
      have hjlt := h3 idx hlt
      rw [List.getD_eq_getElem a 0 hidx, hval] at hjlt
      omega
    have hrlen : bisect_left a x < a.length := by omega
    have hrx : a.getD (bisect_left a x) 0 = x := by
      have hnlt := h4 (bisect_left a x) le_rfl hrlen
      have hle : a.getD (bisect_left a x) 0 ≤ a.getD idx 0 := by
        rw [List.getD_eq_getElem a 0 hidx, List.getD_eq_getElem a 0 hrlen]
        have hrel := hs.rel_get_of_le
          (a := ⟨bisect_left a x, hrlen⟩) (b := ⟨idx, hidx⟩)
          (by simp only [Fin.mk_le_mk]; omega)
        simpa using hrel
      rw [List.getD_eq_getElem a 0 hidx, hval] at hle
      omega
    refine ⟨?_, hrlen, hrx, ?_⟩
    · rw [index]
      rw [if_pos (by omega), if_pos hrx]
    · intro j hj hEq
      have := h3 j hj
      rw [hEq] at this
      omega
  · intro hnmem
    rw [index]
    by_cases hrl : bisect_left a x = a.length
    · rw [if_neg (by simp [hrl])]
    · rw [if_pos hrl]
      have hrlen : bisect_left a x < a.length := by omega
      rw [if_neg ?hne]
      case hne =>
        intro hEq
        apply hnmem
        rw [List.getD_eq_getElem a 0 hrlen] at hEq
        rw [← hEq]
        exact List.getElem_mem hrlen

/-- C1 witness: a concrete two-line Unix file reverses as expected. -/
theorem c1_round_trip_witness :
    (reverse_readline (.stream .text (joinLines .unix [['a'], ['b']])) 5).map
        Prod.fst
      = .ok (forwardLines .unix (joinLines .unix [['a'], ['b']])).reverse :=
  (c1_round_trip .unix [['a'], ['b']] .text 5 (by decide)).1

/-- C2 witness: a concrete file with one terminated line and an
unterminated fragment satisfies terminator preservation. -/
theorem c2_terminator_preservation_witness :
    ∃ lines,
      (reverse_readline (.stream .text (joinLines .unix [['a']] ++ ['b'])) 7).map
          Prod.fst = .ok lines
      ∧ (reverse_readfile (joinLines .unix [['a']] ++ ['b'])).map Prod.fst
          = .ok lines
      ∧ (∀ l ∈ lines.tail, LineEnding.unix.term.isSuffixOf l = true)
      ∧ (∀ h, lines.head? = some h →
          (LineEnding.unix.term.isSuffixOf h = false ↔ (['b'] : List Char) ≠ [])) :=
  c2_terminator_preservation .unix [['a']] ['b'] .text 7 (by decide) (by decide)
    (by decide)

/-- C5 witness: content holding a bare newline is detected as Unix. -/
theorem c5_line_ending_detection_witness :
    lineEndingScan ['a', '\n'] = .ok (.unix, []) :=
  (c5_line_ending_detection ['a', '\n'] (by decide)).2.2 (by decide) (by decide)

/-- C10 witness: the leftmost of the two occurrences of the key is
located in a concrete sorted list. -/
theorem c10_bisect_index_witness :
    index [1, 2, 2, 3] 2 = .ok (bisect_left [1, 2, 2, 3] 2)
      ∧ bisect_left [1, 2, 2, 3] 2 < ([1, 2, 2, 3] : List Int).length :=
  ⟨((c10_bisect_index [1, 2, 2, 3] 2 (by decide)).1 (by decide)).1,
    ((c10_bisect_index [1, 2, 2, 3] 2 (by decide)).1 (by decide)).2.1⟩

end Monty
